import Mathlib

/-!
Verification development for `makedict.py`: a pipeline that reads JSON
records (one JSON value per input line), flattens nested structure into
dotted key paths, tabulates per-key value frequencies, and emits a wide
CSV report.

The Python source is shallowly embedded below. Python `dict` and
`collections.Counter` preserve insertion order, so both layers of the
frequency table are modelled as association lists in insertion order.
Python's `==` on scalars identifies `True` with `1` and `False` with `0`
(`bool` is a subclass of `int`), which is modelled by `pyEq`. JSON
numbers are modelled as integers.
-/

namespace MakeDict

/-- A JSON scalar as it occurs in a parsed record: string, number or
boolean. `null` is represented separately on `JsonValue`. -/
inductive Scalar where
  | str (v : String)
  | num (v : Int)
  | bool (v : Bool)
deriving DecidableEq, Repr

/-- Python `==` on scalars, as used by `Counter` key lookup in
`frequency_counts[prefix[:-1]][data] += 1`: strings compare by value and
never equal numbers or booleans; numbers compare by value; `True == 1`
and `False == 0` because Python `bool` is a subclass of `int`. -/
def pyEq : Scalar → Scalar → Bool
  | .str a, .str b => a = b
  | .num a, .num b => a = b
  | .bool a, .bool b => a = b
  | .bool a, .num b => (if a then (1 : Int) else 0) = b
  | .num a, .bool b => a = (if b then (1 : Int) else 0)
  | _, _ => false

/-- One key's histogram: `Counter` contents in insertion order. -/
abbrev Hist := List (Scalar × Nat)

/-- The `defaultdict(Counter)` `frequency_counts`: key paths to
histograms, in key insertion order. -/
abbrev FreqTable := List (String × Hist)

/-- `counter[data] += 1`: bump the count of the first entry whose key is
Python-equal to `s` (the stored key object stays the first-inserted
representative), or append a fresh entry with count 1. -/
def histIncr : Hist → Scalar → Hist
  | [], s => [(s, 1)]
  | (v, c) :: rest, s =>
    if pyEq v s then (v, c + 1) :: rest else (v, c) :: histIncr rest s

/-- `frequency_counts[k][s] += 1` on the `defaultdict(Counter)`: find the
key `k` (string equality), or append a fresh `Counter` for it at the end. -/
def tableIncr : FreqTable → String → Scalar → FreqTable
  | [], k, s => [(k, [(s, 1)])]
  | (k1, h) :: rest, k, s =>
    if k1 = k then (k1, histIncr h s) :: rest
    else (k1, h) :: tableIncr rest k s

/-- Dictionary lookup `frequency_counts[k]` as a query (no defaulting). -/
def histOf : FreqTable → String → Option Hist
  | [], _ => none
  | (k1, h) :: rest, k => if k1 = k then some h else histOf rest k

/-- Total count mass of one histogram. -/
def sumCounts (h : Hist) : Nat := h.foldr (fun vc acc => vc.2 + acc) 0

/-- Total count mass recorded under key `k` (0 when the key is absent). -/
def sumAt (t : FreqTable) (k : String) : Nat :=
  match histOf t k with
  | none => 0
  | some h => sumCounts h

mutual
/-- A parsed JSON value: object, array, scalar or null. Objects carry
their fields in source order (Python `dict` iteration order). -/
inductive JsonValue where
  | null
  | prim (s : Scalar)
  | obj (fields : JsonFields)
  | arr (items : JsonArray)

/-- The field list of a JSON object. -/
inductive JsonFields where
  | nil
  | cons (k : String) (v : JsonValue) (rest : JsonFields)

/-- The element list of a JSON array. -/
inductive JsonArray where
  | nil
  | cons (v : JsonValue) (rest : JsonArray)
end

/-- Elements of a `JsonArray` as a `List`. -/
def JsonArray.toList : JsonArray → List JsonValue
  | .nil => []
  | .cons v rest => v :: rest.toList

/-- Python `prefix[:-1]`: drop the last character (identity on `""`). -/
def strDropLast (s : String) : String := ⟨s.data.dropLast⟩

mutual
/-- `flatten_data(data, prefix, frequency_counts)` from the source:
dicts recurse with the prefix extended by `f'{prefix}{k}.'`, lists
recurse elementwise with the same prefix, `None` is skipped, and any
other value increments `frequency_counts[prefix[:-1]][data]`. The
mutated table is threaded explicitly. -/
def flatten_data : JsonValue → String → FreqTable → FreqTable
  | .null, _, t => t
  | .prim s, pre, t => tableIncr t (strDropLast pre) s
  | .obj fs, pre, t => flattenFields fs pre t
  | .arr xs, pre, t => flattenItems xs pre t

/-- The `for k, v in data.items()` loop of `flatten_data`. -/
def flattenFields : JsonFields → String → FreqTable → FreqTable
  | .nil, _, t => t
  | .cons k v rest, pre, t =>
    flattenFields rest pre (flatten_data v (pre ++ k ++ ".") t)

/-- The `for item in data` loop of `flatten_data`. -/
def flattenItems : JsonArray → String → FreqTable → FreqTable
  | .nil, _, t => t
  | .cons v rest, pre, t => flattenItems rest pre (flatten_data v pre t)
end

/-- `process_data(data)`: fold `flatten_data(entry, '', frequency_counts)`
over the record sequence, starting from the empty table. -/
def process_data (data : List JsonValue) : FreqTable :=
  data.foldl (fun t entry => flatten_data entry "" t) []

/-- Insert one `(value, count)` item into an already-processed list so
that it lands before the first item of count ≤ its own. Folding this
over a histogram reproduces Python's stable
`sorted(items, key=lambda x: x[1], reverse=True)`: stability is what
pins the output order, and any stable descending sort computes it. -/
def insertDesc (x : Scalar × Nat) : List (Scalar × Nat) → List (Scalar × Nat)
  | [] => [x]
  | y :: ys => if y.2 ≤ x.2 then x :: y :: ys else y :: insertDesc x ys

/-- Stable sort of a histogram by count, descending, modelling
`sorted(frequency_counts[field].items(), key=lambda x: x[1], reverse=True)`. -/
def sortDesc : List (Scalar × Nat) → List (Scalar × Nat)
  | [] => []
  | x :: xs => insertDesc x (sortDesc xs)

/-- The `data_rows` dictionary of `write_to_csv`: the same keys in the
same order, each histogram replaced by its sorted item list. -/
def dataRows (t : FreqTable) : FreqTable :=
  t.map (fun kh => (kh.1, sortDesc kh.2))

/-- The header row of `write_to_csv`: `f'{field} [Value]'` and
`f'{field} [Instances]'` for each key in table order. -/
def headersOf : FreqTable → List String
  | [] => []
  | (k, _) :: rest => (k ++ " [Value]") :: (k ++ " [Instances]") :: headersOf rest

/-- `max((len(data) for data in data_rows.values()), default=0)`. -/
def maxLen (d : FreqTable) : Nat :=
  d.foldr (fun kh m => max kh.2.length m) 0

/-- One CSV data cell: a scalar value, an instance count, or the empty
string written when a key's sorted list is exhausted (`IndexError`). -/
inductive Cell where
  | vcell (s : Scalar)
  | icell (n : Nat)
  | blank
deriving DecidableEq, Repr

/-- Data row `i` of `write_to_csv`: for each key in table order,
`data_rows[field][i]` as a value cell and a count cell, or two blank
cells when the index is out of range. -/
def rowCellsFor (d : FreqTable) (i : Nat) : List Cell :=
  match d with
  | [] => []
  | (_, h) :: rest =>
    match h[i]? with
    | some (v, c) => .vcell v :: .icell c :: rowCellsFor rest i
    | none => .blank :: .blank :: rowCellsFor rest i

/-- Outcome of `write_to_csv`. `emptyTable` is the early `return` when
`frequency_counts` is falsy: no file is opened and no error is raised.
`headerOnly` is the `max_length == 0` branch: the file exists with just
the header row and an error is logged. `ok` is the full write. -/
inductive CsvResult where
  | emptyTable
  | headerOnly (headers : List String)
  | ok (headers : List String) (rows : List (List Cell))
deriving DecidableEq, Repr

/-- `write_to_csv(frequency_counts, output_file)` from the source, as a
pure function from the table to what reaches the file. -/
def write_to_csv (t : FreqTable) : CsvResult :=
  if t = [] then .emptyTable
  else
    let d := dataRows t
    let m := maxLen d
    if m = 0 then .headerOnly (headersOf t)
    else .ok (headersOf t) ((List.range m).map (rowCellsFor d))

/-- Header cells of a writer outcome (empty when no file was written). -/
def csvHeaders : CsvResult → List String
  | .emptyTable => []
  | .headerOnly hs => hs
  | .ok hs _ => hs

/-- Data rows of a writer outcome. -/
def csvRows : CsvResult → List (List Cell)
  | .emptyTable => []
  | .headerOnly _ => []
  | .ok _ rows => rows

/-- Whether the writer opened and wrote the output file at all. -/
def producesFile : CsvResult → Bool
  | .emptyTable => false
  | _ => true

/-- One input line after `line.strip()`, seen through `json.loads`:
blank, syntactically invalid JSON, or a parsed JSON value. Parsing
itself is the standard library's; the loader's control flow over its
outcomes is what is embedded. -/
inductive LineContent where
  | empty
  | malformed
  | parsed (v : JsonValue)

/-- The per-line loop of `read_json_file`: blank lines are skipped,
decode errors are logged and the line skipped, a parsed list extends
`all_data` elementwise, and any other parsed value is appended. -/
def read_json_file : List LineContent → List JsonValue
  | [] => []
  | .empty :: rest => read_json_file rest
  | .malformed :: rest => read_json_file rest
  | .parsed (.arr xs) :: rest => xs.toList ++ read_json_file rest
  | .parsed v :: rest => v :: read_json_file rest

mutual
/-- Modelled from the spec's conservation law: the number of non-null
scalar leaves of a value that are reachable at KeyPath `k`, where a
leaf's KeyPath is its accumulated object-key prefix with the trailing
separator removed and arrays are transparent. This is the spec-side
measure against which the aggregated counts are checked. -/
def specLeavesAt : JsonValue → String → String → Nat
  | .null, _, _ => 0
  | .prim _, pre, k => if strDropLast pre = k then 1 else 0
  | .obj fs, pre, k => specLeavesFieldsAt fs pre k
  | .arr xs, pre, k => specLeavesItemsAt xs pre k

/-- Leaf count of an object's fields at KeyPath `k`. -/
def specLeavesFieldsAt : JsonFields → String → String → Nat
  | .nil, _, _ => 0
  | .cons f v rest, pre, k =>
    specLeavesAt v (pre ++ f ++ ".") k + specLeavesFieldsAt rest pre k

/-- Leaf count of an array's elements at KeyPath `k`. -/
def specLeavesItemsAt : JsonArray → String → String → Nat
  | .nil, _, _ => 0
  | .cons v rest, pre, k => specLeavesAt v pre k + specLeavesItemsAt rest pre k
end

/-- The structural invariant of aggregation output: every key present
in the table has a non-empty histogram, and every recorded count is at
least 1. -/
def tableWF (t : FreqTable) : Prop :=
  ∀ kh ∈ t, kh.2 ≠ [] ∧ ∀ vc ∈ kh.2, 1 ≤ vc.2

/-! ### Stable-sort lemmas

`sortDesc` models the Python stable sort; the lemmas below establish the
three facts pinning its output: it permutes its input, its output is
non-increasing in count, and within each count class it preserves input
order (the filter identity). -/

theorem insertDesc_length (x : Scalar × Nat) (l : List (Scalar × Nat)) :
    (insertDesc x l).length = l.length + 1 := by
  induction l with
  | nil => rfl
  | cons y ys ih => rw [insertDesc]; split <;> simp [ih]

theorem sortDesc_length (l : List (Scalar × Nat)) :
    (sortDesc l).length = l.length := by
  induction l with
  | nil => rfl
  | cons x xs ih => rw [sortDesc, insertDesc_length, ih]; rfl

theorem insertDesc_perm (x : Scalar × Nat) (l : List (Scalar × Nat)) :
    (insertDesc x l).Perm (x :: l) := by
  induction l with
  | nil => exact List.Perm.refl _
  | cons y ys ih =>
    rw [insertDesc]; split
    · exact List.Perm.refl _
    · exact (ih.cons y).trans (List.Perm.swap x y ys)

theorem sortDesc_perm (l : List (Scalar × Nat)) : (sortDesc l).Perm l := by
  induction l with
  | nil => exact List.Perm.refl _
  | cons x xs ih => exact (insertDesc_perm x (sortDesc xs)).trans (ih.cons x)

theorem insertDesc_pairwise (x : Scalar × Nat) {l : List (Scalar × Nat)}
    (hl : l.Pairwise (fun a b => b.2 ≤ a.2)) :
    (insertDesc x l).Pairwise (fun a b => b.2 ≤ a.2) := by
  induction l with
  | nil => simp [insertDesc]
  | cons y ys ih =>
    rw [List.pairwise_cons] at hl
    obtain ⟨hy, hys⟩ := hl
    rw [insertDesc]; split
    · rename_i hyx
      refine List.pairwise_cons.mpr ⟨?_, List.pairwise_cons.mpr ⟨hy, hys⟩⟩
      intro z hz
      rcases List.mem_cons.mp hz with rfl | hz
      · exact hyx
      · exact le_trans (hy z hz) hyx
    · rename_i hyx
      refine List.pairwise_cons.mpr ⟨?_, ih hys⟩
      intro z hz
      rcases List.mem_cons.mp ((insertDesc_perm x ys).mem_iff.mp hz) with rfl | hz
      · exact le_of_not_le hyx
      · exact hy z hz

theorem sortDesc_pairwise (l : List (Scalar × Nat)) :
    (sortDesc l).Pairwise (fun a b => b.2 ≤ a.2) := by
  induction l with
  | nil => simp [sortDesc]
  | cons x xs ih => exact insertDesc_pairwise x ih

theorem insertDesc_filter (x : Scalar × Nat) (l : List (Scalar × Nat)) (c : Nat) :
    (insertDesc x l).filter (fun vc => vc.2 == c)
      = (x :: l).filter (fun vc => vc.2 == c) := by
  induction l with
  | nil => rfl
  | cons y ys ih =>
    rw [insertDesc]; split
    · rfl
    · rename_i hyx
      by_cases hx : x.2 = c <;> by_cases hy : y.2 = c
    -- x.2 = c = y.2 contradicts ¬ y.2 ≤ x.2
      · omega
      · simp only [List.filter_cons, hx, hy, ih]
        simp [hx, hy]
      · simp only [List.filter_cons, hx, hy, ih]
        simp [hx, hy]
      · simp only [List.filter_cons, hx, hy, ih]
        simp [hx, hy]

/-! ### Table lemmas: counts, lookup, conservation -/

theorem sumCounts_nil : sumCounts [] = 0 := rfl

theorem sumCounts_cons (vc : Scalar × Nat) (h : Hist) :
    sumCounts (vc :: h) = vc.2 + sumCounts h := rfl

theorem sumCounts_histIncr (h : Hist) (s : Scalar) :
    sumCounts (histIncr h s) = sumCounts h + 1 := by
  induction h with
  | nil => rfl
  | cons vc rest ih =>
    rw [histIncr]; split
    · simp [sumCounts_cons]; omega
    · simp [sumCounts_cons, ih]; omega

theorem sumAt_nil (k : String) : sumAt [] k = 0 := rfl

theorem sumAt_cons (k1 : String) (h : Hist) (rest : FreqTable) (k : String) :
    sumAt ((k1, h) :: rest) k = if k1 = k then sumCounts h else sumAt rest k := by
  by_cases hk : k1 = k <;> simp [sumAt, histOf, hk]

theorem sumAt_tableIncr (t : FreqTable) (k' k : String) (s : Scalar) :
    sumAt (tableIncr t k' s) k = sumAt t k + (if k' = k then 1 else 0) := by
  induction t with
  | nil =>
    by_cases hk : k' = k <;>
      simp [tableIncr, sumAt_cons, sumAt_nil, hk, sumCounts]
  | cons kh rest ih =>
    obtain ⟨k1, h⟩ := kh
    by_cases h1 : k1 = k'
    · subst h1
      rw [show tableIncr ((k1, h) :: rest) k1 s = (k1, histIncr h s) :: rest from by
        simp [tableIncr]]
      rw [sumAt_cons, sumAt_cons]
      by_cases hk : k1 = k <;> simp [hk, sumCounts_histIncr]
    · rw [show tableIncr ((k1, h) :: rest) k' s = (k1, h) :: tableIncr rest k' s from by
        simp [tableIncr, h1]]
      rw [sumAt_cons, sumAt_cons, ih]
      by_cases hk : k1 = k
      · subst hk
        have hne : ¬k' = k1 := fun e => h1 e.symm
        simp [hne]
      · simp [hk]

mutual
/-- Conservation through one `flatten_data` call: the count mass at key
`k` grows by exactly the number of non-null scalar leaves of the value
reachable at `k`. -/
theorem sumAt_flatten : ∀ (v : JsonValue) (pre : String) (t : FreqTable) (k : String),
    sumAt (flatten_data v pre t) k = sumAt t k + specLeavesAt v pre k
  | .null, pre, t, k => by simp [flatten_data, specLeavesAt]
  | .prim s, pre, t, k => by
    rw [flatten_data, specLeavesAt, sumAt_tableIncr]
  | .obj fs, pre, t, k => by
    rw [flatten_data, specLeavesAt]; exact sumAt_flattenFields fs pre t k
  | .arr xs, pre, t, k => by
    rw [flatten_data, specLeavesAt]; exact sumAt_flattenItems xs pre t k

theorem sumAt_flattenFields : ∀ (fs : JsonFields) (pre : String) (t : FreqTable) (k : String),
    sumAt (flattenFields fs pre t) k = sumAt t k + specLeavesFieldsAt fs pre k
  | .nil, pre, t, k => by simp [flattenFields, specLeavesFieldsAt]
  | .cons f v rest, pre, t, k => by
    rw [flattenFields, specLeavesFieldsAt, sumAt_flattenFields rest, sumAt_flatten v]
    omega

theorem sumAt_flattenItems : ∀ (xs : JsonArray) (pre : String) (t : FreqTable) (k : String),
    sumAt (flattenItems xs pre t) k = sumAt t k + specLeavesItemsAt xs pre k
  | .nil, pre, t, k => by simp [flattenItems, specLeavesItemsAt]
  | .cons v rest, pre, t, k => by
    rw [flattenItems, specLeavesItemsAt, sumAt_flattenItems rest, sumAt_flatten v]
    omega
end

theorem sumAt_foldl (rs : List JsonValue) (t : FreqTable) (k : String) :
    sumAt (rs.foldl (fun t entry => flatten_data entry "" t) t) k
      = sumAt t k + (rs.map (fun r => specLeavesAt r "" k)).sum := by
  induction rs generalizing t with
  | nil => simp
  | cons r rest ih =>
    simp only [List.foldl_cons, List.map_cons, List.sum_cons]
    rw [ih, sumAt_flatten]
    omega

theorem sumAt_process_data (rs : List JsonValue) (k : String) :
    sumAt (process_data rs) k = (rs.map (fun r => specLeavesAt r "" k)).sum := by
  rw [process_data, sumAt_foldl, sumAt_nil, Nat.zero_add]

theorem sortDesc_filter (l : List (Scalar × Nat)) (c : Nat) :
    (sortDesc l).filter (fun vc => vc.2 == c)
      = l.filter (fun vc => vc.2 == c) := by
  induction l with
  | nil => rfl
  | cons x xs ih =>
    rw [sortDesc, insertDesc_filter]
    by_cases hx : x.2 = c <;> simp [List.filter_cons, hx, ih]

/-! ### The aggregation invariant -/

theorem histIncr_ne_nil (h : Hist) (s : Scalar) : histIncr h s ≠ [] := by
  cases h with
  | nil => simp [histIncr]
  | cons vc rest => rw [histIncr]; split <;> simp

theorem histIncr_counts {h : Hist} (hc : ∀ vc ∈ h, 1 ≤ vc.2) (s : Scalar) :
    ∀ vc ∈ histIncr h s, 1 ≤ vc.2 := by
  induction h with
  | nil => simp [histIncr]
  | cons y ys ih =>
    rw [histIncr]; split
    · intro vc hvc
      rcases List.mem_cons.mp hvc with rfl | hvc
      · simp
      · exact hc vc (List.mem_cons_of_mem _ hvc)
    · intro vc hvc
      rcases List.mem_cons.mp hvc with rfl | hvc
      · exact hc y (List.mem_cons_self _ _)
      · exact ih (fun vc h => hc vc (List.mem_cons_of_mem _ h)) vc hvc

theorem tableIncr_WF {t : FreqTable} (ht : tableWF t) (k : String) (s : Scalar) :
    tableWF (tableIncr t k s) := by
  induction t with
  | nil =>
    intro kh hm
    rcases List.mem_singleton.mp hm with rfl
    exact ⟨by simp, by simp⟩
  | cons kh1 rest ih =>
    obtain ⟨k1, h1⟩ := kh1
    have hhead := ht (k1, h1) (List.mem_cons_self _ _)
    have htail : tableWF rest := fun kh hm => ht kh (List.mem_cons_of_mem _ hm)
    rw [tableIncr]; split
    · intro kh hm
      rcases List.mem_cons.mp hm with rfl | hm
      · exact ⟨histIncr_ne_nil h1 s, histIncr_counts hhead.2 s⟩
      · exact htail kh hm
    · intro kh hm
      rcases List.mem_cons.mp hm with rfl | hm
      · exact hhead
      · exact ih htail kh hm

mutual
/-- `flatten_data` preserves the aggregation invariant. -/
theorem flatten_WF : ∀ (v : JsonValue) (pre : String) {t : FreqTable},
    tableWF t → tableWF (flatten_data v pre t)
  | .null, _, _, ht => ht
  | .prim s, pre, _, ht => tableIncr_WF ht (strDropLast pre) s
  | .obj fs, pre, _, ht => flattenFields_WF fs pre ht
  | .arr xs, pre, _, ht => flattenItems_WF xs pre ht

theorem flattenFields_WF : ∀ (fs : JsonFields) (pre : String) {t : FreqTable},
    tableWF t → tableWF (flattenFields fs pre t)
  | .nil, _, _, ht => ht
  | .cons k v rest, pre, _, ht =>
    flattenFields_WF rest pre (flatten_WF v (pre ++ k ++ ".") ht)

theorem flattenItems_WF : ∀ (xs : JsonArray) (pre : String) {t : FreqTable},
    tableWF t → tableWF (flattenItems xs pre t)
  | .nil, _, _, ht => ht
  | .cons v rest, pre, _, ht => flattenItems_WF rest pre (flatten_WF v pre ht)
end

theorem process_data_WF (rs : List JsonValue) : tableWF (process_data rs) := by
  rw [process_data]
  have : ∀ (l : List JsonValue) (t : FreqTable), tableWF t →
      tableWF (l.foldl (fun t entry => flatten_data entry "" t) t) := by
    intro l
    induction l with
    | nil => intro t ht; exact ht
    | cons r rest ih => intro t ht; exact ih _ (flatten_WF r "" ht)
  exact this rs [] (by intro kh hm; cases hm)

theorem histOf_mem {t : FreqTable} {k : String} {h : Hist}
    (he : histOf t k = some h) : (k, h) ∈ t := by
  induction t with
  | nil => cases he
  | cons kh1 rest ih =>
    obtain ⟨k1, h1⟩ := kh1
    rw [histOf] at he
    by_cases hk : k1 = k
    · rw [if_pos hk] at he
      cases he
      cases hk
      exact List.mem_cons_self _ _
    · rw [if_neg hk] at he
      exact List.mem_cons_of_mem _ (ih he)

theorem sumCounts_pos {h : Hist} (hne : h ≠ [])
    (hc : ∀ vc ∈ h, 1 ≤ vc.2) : 1 ≤ sumCounts h := by
  cases h with
  | nil => exact absurd rfl hne
  | cons vc rest =>
    have := hc vc (List.mem_cons_self _ _)
    rw [sumCounts_cons]
    omega

/-! ### CSV writer structure lemmas -/

theorem headersOf_length (t : FreqTable) : (headersOf t).length = 2 * t.length := by
  induction t with
  | nil => rfl
  | cons kh rest ih =>
    obtain ⟨k, h⟩ := kh
    rw [headersOf]
    simp [ih]
    omega

theorem rowCellsFor_length (d : FreqTable) (i : Nat) :
    (rowCellsFor d i).length = 2 * d.length := by
  induction d with
  | nil => rfl
  | cons kh rest ih =>
    obtain ⟨k, h⟩ := kh
    rw [rowCellsFor]
    cases h[i]? with
    | none => simp [ih]; omega
    | some vc => obtain ⟨v, c⟩ := vc; simp [ih]; omega

theorem dataRows_length (t : FreqTable) : (dataRows t).length = t.length :=
  List.length_map _ _

theorem dataRows_get (t : FreqTable) (j : Nat) :
    (dataRows t)[j]? = t[j]?.map (fun kh => (kh.1, sortDesc kh.2)) :=
  List.getElem?_map _ _ _

theorem histOf_dataRows (t : FreqTable) (k : String) :
    histOf (dataRows t) k = (histOf t k).map sortDesc := by
  induction t with
  | nil => rfl
  | cons kh rest ih =>
    obtain ⟨k1, h1⟩ := kh
    by_cases hk : k1 = k
    · simp [dataRows, histOf, hk]
    · simp only [dataRows, List.map_cons, histOf, if_neg hk]
      simpa [dataRows] using ih

theorem maxLen_nil : maxLen [] = 0 := rfl

theorem maxLen_cons (k : String) (h : Hist) (rest : FreqTable) :
    maxLen ((k, h) :: rest) = max h.length (maxLen rest) := rfl

theorem maxLen_dataRows (t : FreqTable) : maxLen (dataRows t) = maxLen t := by
  induction t with
  | nil => rfl
  | cons kh rest ih =>
    obtain ⟨k, h⟩ := kh
    rw [show dataRows ((k, h) :: rest) = (k, sortDesc h) :: dataRows rest from rfl,
      maxLen_cons, maxLen_cons, sortDesc_length, ih]

theorem rowCellsFor_get (d : FreqTable) (i j : Nat) :
    (rowCellsFor d i)[2 * j]?
        = d[j]?.map (fun kh =>
            match kh.2[i]? with
            | some vc => Cell.vcell vc.1
            | none => Cell.blank) ∧
      (rowCellsFor d i)[2 * j + 1]?
        = d[j]?.map (fun kh =>
            match kh.2[i]? with
            | some vc => Cell.icell vc.2
            | none => Cell.blank) := by
  induction d generalizing j with
  | nil => simp [rowCellsFor]
  | cons kh rest ih =>
    obtain ⟨k, h⟩ := kh
    cases j with
    | zero =>
      rw [rowCellsFor]
      cases hv : h[i]? with
      | none => simp [hv]
      | some vc => obtain ⟨v, c⟩ := vc; simp [hv]
    | succ j =>
      have e0 : 2 * (j + 1) = 2 * j + 1 + 1 := by omega
      have e1 : 2 * (j + 1) + 1 = (2 * j + 1) + 1 + 1 := by omega
      rw [rowCellsFor]
      cases hv : h[i]? with
      | none =>
        simp only [e0, e1, List.getElem?_cons_succ]
        exact ih j
      | some vc =>
        obtain ⟨v, c⟩ := vc
        simp only [e0, e1, List.getElem?_cons_succ]
        exact ih j

theorem write_to_csv_nil : write_to_csv [] = CsvResult.emptyTable := rfl

theorem write_to_csv_zero {t : FreqTable} (ht : t ≠ [])
    (hm : maxLen (dataRows t) = 0) :
    write_to_csv t = CsvResult.headerOnly (headersOf t) := by
  rw [write_to_csv, if_neg ht]
  simp [hm]

theorem write_to_csv_pos {t : FreqTable} (ht : t ≠ [])
    (hm : maxLen (dataRows t) ≠ 0) :
    write_to_csv t = CsvResult.ok (headersOf t)
      ((List.range (maxLen (dataRows t))).map (rowCellsFor (dataRows t))) := by
  rw [write_to_csv, if_neg ht]
  simp [hm]

theorem maxLen_pos_of_WF {t : FreqTable} (hwf : tableWF t) (hne : t ≠ []) :
    1 ≤ maxLen (dataRows t) := by
  cases t with
  | nil => exact absurd rfl hne
  | cons kh rest =>
    obtain ⟨k, h⟩ := kh
    have hh : h ≠ [] := (hwf (k, h) (List.mem_cons_self _ _)).1
    have hl : 1 ≤ h.length := List.length_pos.mpr hh
    rw [show dataRows ((k, h) :: rest) = (k, sortDesc h) :: dataRows rest from rfl,
      maxLen_cons, sortDesc_length]
    omega

theorem strDropLast_concat (k : String) : strDropLast (k ++ ".") = k := by
  obtain ⟨l⟩ := k
  show (⟨((⟨l⟩ : String) ++ ".").data.dropLast⟩ : String) = ⟨l⟩
  have hd : ((⟨l⟩ : String) ++ ".").data = l ++ ['.'] := rfl
  rw [hd, List.dropLast_concat]

theorem read_json_file_append (a b : List LineContent) :
    read_json_file (a ++ b) = read_json_file a ++ read_json_file b := by
  induction a with
  | nil => rfl
  | cons l rest ih =>
    cases l with
    | empty => simpa [read_json_file] using ih
    | malformed => simpa [read_json_file] using ih
    | parsed v =>
      cases v with
      | null => simp [read_json_file, ih]
      | prim s => simp [read_json_file, ih]
      | obj fs => simp [read_json_file, ih]
      | arr xs => simp [read_json_file, ih]

/-! ### The claims -/

/-- C1 counterexample: the records `{"a": true}` and `{"a": 1}` carry
scalars of different JSON kinds (boolean and number) to the same KeyPath
`a`, yet the aggregator merges them into a single histogram entry with
count 2, because Python's `==` identifies `True` with `1` when `Counter`
looks up the key. The claim that any two scalars of different kinds are
distinct value identities is therefore false on the code. -/
theorem C1_counterexample :
    histOf (process_data
        [JsonValue.obj (.cons "a" (.prim (.bool true)) .nil),
         JsonValue.obj (.cons "a" (.prim (.num 1)) .nil)]) "a"
      = some [(Scalar.bool true, 2)] ∧
    Scalar.bool true ≠ Scalar.num 1 := by
  exact ⟨by decide, by decide⟩

/-- C1 (amended): scalars that Python's `==` distinguishes are kept as
distinct histogram entries with separate counts; in particular a string
is never Python-equal to a number or a boolean, so numeric `1` and
string `"1"` never collide. The exception forced by the counterexample:
booleans are Python-equal to the numbers 0 and 1, so those pairs merge. -/
theorem C1_distinct_kinds :
    (∀ (a : String) (n : Int),
        pyEq (Scalar.str a) (Scalar.num n) = false ∧
        pyEq (Scalar.num n) (Scalar.str a) = false) ∧
    (∀ (a : String) (b : Bool),
        pyEq (Scalar.str a) (Scalar.bool b) = false ∧
        pyEq (Scalar.bool b) (Scalar.str a) = false) ∧
    (∀ (k : String) (s1 s2 : Scalar), pyEq s1 s2 = false →
        histOf (process_data
            [JsonValue.obj (.cons k (.prim s1) .nil),
             JsonValue.obj (.cons k (.prim s2) .nil)]) k
          = some [(s1, 1), (s2, 1)]) := by
  refine ⟨fun a n => ⟨rfl, rfl⟩, fun a b => ⟨rfl, rfl⟩, ?_⟩
  intro k s1 s2 hne
  have e : strDropLast ("" ++ k ++ ".") = k := by
    rw [show (("" ++ k : String)) = k from rfl]
    exact strDropLast_concat k
  show histOf (tableIncr (tableIncr [] (strDropLast ("" ++ k ++ ".")) s1)
      (strDropLast ("" ++ k ++ ".")) s2) k = some [(s1, 1), (s2, 1)]
  rw [e]
  simp [tableIncr, histIncr, hne, histOf]

/-- C1 witness: number `1` and string `"1"` are not Python-equal, so two
records carrying them to KeyPath `a` leave two distinct entries, each
with count 1. -/
theorem C1_witness :
    pyEq (Scalar.num 1) (Scalar.str "1") = false ∧
    histOf (process_data
        [JsonValue.obj (.cons "a" (.prim (.num 1)) .nil),
         JsonValue.obj (.cons "a" (.prim (.str "1")) .nil)]) "a"
      = some [(Scalar.num 1, 1), (Scalar.str "1", 1)] :=
  ⟨by decide, C1_distinct_kinds.2.2 "a" (Scalar.num 1) (Scalar.str "1") (by decide)⟩

/-- C2: the per-key value list handed to the CSV rows (`data_rows`,
computed by `dataRows`) is `sortDesc` of the key's histogram, and that
list is a permutation of the histogram, is non-increasing in count, and
within each count class preserves the histogram's insertion order (the
filter identity), i.e. the sort is stable with ties broken by first
encounter during aggregation. -/
theorem C2_sorted_stable (t : FreqTable) (k : String) (h : Hist)
    (he : histOf t k = some h) :
    histOf (dataRows t) k = some (sortDesc h) ∧
    (sortDesc h).Pairwise (fun a b => b.2 ≤ a.2) ∧
    (sortDesc h).Perm h ∧
    ∀ c, (sortDesc h).filter (fun vc => vc.2 == c)
      = h.filter (fun vc => vc.2 == c) :=
  ⟨by rw [histOf_dataRows, he]; rfl,
   sortDesc_pairwise h, sortDesc_perm h, sortDesc_filter h⟩

/-- C2 witness: a key with a count tie — `x` and `z` both have count 1,
`x` was inserted first, and the sorted list keeps `x` before `z` after
the count-2 value `y`. -/
theorem C2_witness :
    histOf [("a", [(Scalar.str "x", 1), (Scalar.str "y", 2), (Scalar.str "z", 1)])] "a"
      = some [(Scalar.str "x", 1), (Scalar.str "y", 2), (Scalar.str "z", 1)] ∧
    histOf (dataRows
        [("a", [(Scalar.str "x", 1), (Scalar.str "y", 2), (Scalar.str "z", 1)])]) "a"
      = some [(Scalar.str "y", 2), (Scalar.str "x", 1), (Scalar.str "z", 1)] :=
  ⟨rfl, by
    rw [(C2_sorted_stable
      [("a", [(Scalar.str "x", 1), (Scalar.str "y", 2), (Scalar.str "z", 1)])]
      "a" [(Scalar.str "x", 1), (Scalar.str "y", 2), (Scalar.str "z", 1)] rfl).1]
    decide⟩

/-- C3: conservation — after processing any finite record sequence, the
total count mass recorded under any KeyPath `k` equals the number of
non-null scalar leaves reachable at `k` across all records. -/
theorem C3_conservation (records : List JsonValue) (k : String) :
    sumAt (process_data records) k
      = (records.map (fun r => specLeavesAt r "" k)).sum :=
  sumAt_process_data records k

/-- C4: arrays are transparent — flattening a one-element array is the
same table transformation as flattening the element, with the same
prefix; in particular `{"a":{"b":1}}` and `[{"a":{"b":1}}]` produce
identical FrequencyTables. -/
theorem C4_array_transparent :
    (∀ (v : JsonValue) (pre : String) (t : FreqTable),
        flatten_data (.arr (.cons v .nil)) pre t = flatten_data v pre t) ∧
    process_data
        [JsonValue.obj (.cons "a" (.obj (.cons "b" (.prim (.num 1)) .nil)) .nil)]
      = process_data
        [JsonValue.arr (.cons
            (.obj (.cons "a" (.obj (.cons "b" (.prim (.num 1)) .nil)) .nil)) .nil)] :=
  ⟨fun _ _ _ => rfl, rfl⟩

/-- C5: CSV shape — for a non-empty table the header row has exactly
2 × (number of keys) cells; there are exactly `maxLen t` data rows,
`maxLen t` being the maximum number of distinct values over all keys;
every data row has 2 × (number of keys) cells; and row `i` holds, at the
cell pair of key `j`, that key's `i`-th sorted `(value, count)` pair, or
two blank cells when the key has fewer than `i+1` distinct values. -/
theorem C5_csv_shape (t : FreqTable) (ht : t ≠ []) :
    (csvHeaders (write_to_csv t)).length = 2 * t.length ∧
    (csvRows (write_to_csv t)).length = maxLen t ∧
    (∀ r ∈ csvRows (write_to_csv t), r.length = 2 * t.length) ∧
    (∀ (i : Nat) (row : List Cell), (csvRows (write_to_csv t))[i]? = some row →
      ∀ (j : Nat) (k : String) (h : Hist), t[j]? = some (k, h) →
        (∀ v c, (sortDesc h)[i]? = some (v, c) →
            row[2 * j]? = some (Cell.vcell v) ∧
            row[2 * j + 1]? = some (Cell.icell c)) ∧
        ((sortDesc h)[i]? = none →
            row[2 * j]? = some Cell.blank ∧
            row[2 * j + 1]? = some Cell.blank)) := by
  by_cases hm : maxLen (dataRows t) = 0
  · rw [write_to_csv_zero ht hm]
    refine ⟨headersOf_length t, ?_, ?_, ?_⟩
    · show ([] : List (List Cell)).length = maxLen t
      rw [← maxLen_dataRows, hm]
      rfl
    · intro r hr
      exact absurd hr (List.not_mem_nil r)
    · intro i row hrow
      rw [show csvRows (CsvResult.headerOnly (headersOf t)) = [] from rfl] at hrow
      simp at hrow
  · rw [write_to_csv_pos ht hm]
    refine ⟨headersOf_length t, ?_, ?_, ?_⟩
    · show ((List.range (maxLen (dataRows t))).map (rowCellsFor (dataRows t))).length
          = maxLen t
      rw [List.length_map, List.length_range, maxLen_dataRows]
    · intro r hr
      obtain ⟨i, _, rfl⟩ := List.mem_map.mp hr
      rw [rowCellsFor_length, dataRows_length]
    · intro i row hrow
      rw [show csvRows (CsvResult.ok (headersOf t)
            ((List.range (maxLen (dataRows t))).map (rowCellsFor (dataRows t))))
          = (List.range (maxLen (dataRows t))).map (rowCellsFor (dataRows t)) from rfl,
        List.getElem?_map] at hrow
      have hin : i < maxLen (dataRows t) := by
        by_contra hlt
        rw [List.getElem?_eq_none (by simp [List.length_range]; omega)] at hrow
        cases hrow
      rw [List.getElem?_range hin] at hrow
      rw [Option.map_some'] at hrow
      injection hrow with hrow
      subst hrow
      intro j k h hj
      have hg := rowCellsFor_get (dataRows t) i j
      rw [dataRows_get, hj] at hg
      simp only [Option.map_some'] at hg
      constructor
      · intro v c hvc
        simp only [hvc] at hg
        exact hg
      · intro h0
        simp only [h0] at hg
        exact hg

/-- C5 witness: a two-key table whose first key has two distinct values
and whose second has one; the writer emits `maxLen` = 2 data rows. -/
theorem C5_witness :
    ([("a", [(Scalar.num 1, 2), (Scalar.num 2, 1)]),
      ("b", [(Scalar.str "x", 1)])] : FreqTable) ≠ [] ∧
    (csvRows (write_to_csv
        [("a", [(Scalar.num 1, 2), (Scalar.num 2, 1)]),
         ("b", [(Scalar.str "x", 1)])])).length
      = maxLen [("a", [(Scalar.num 1, 2), (Scalar.num 2, 1)]),
                ("b", [(Scalar.str "x", 1)])] :=
  ⟨by decide,
   (C5_csv_shape [("a", [(Scalar.num 1, 2), (Scalar.num 2, 1)]),
      ("b", [(Scalar.str "x", 1)])] (by decide)).2.1⟩

/-- C6: null leaves are skipped — flattening `null` leaves the table
unchanged, and a KeyPath at which no record has a non-null scalar leaf
is never created in the table (so it cannot appear in the output). Null
cannot occur inside any histogram at all: histogram values have type
`Scalar`, which `flatten_data` only reaches for non-null leaves. -/
theorem C6_null_never_recorded :
    (∀ (pre : String) (t : FreqTable), flatten_data .null pre t = t) ∧
    (∀ (records : List JsonValue) (k : String),
        (records.map (fun r => specLeavesAt r "" k)).sum = 0 →
        histOf (process_data records) k = none) := by
  refine ⟨fun _ _ => rfl, ?_⟩
  intro records k hz
  cases he : histOf (process_data records) k with
  | none => rfl
  | some h =>
    exfalso
    have hwf := process_data_WF records (k, h) (histOf_mem he)
    have hpos : 1 ≤ sumCounts h := sumCounts_pos hwf.1 hwf.2
    have hsum : sumAt (process_data records) k = 0 := by
      rw [sumAt_process_data, hz]
    simp only [sumAt, he] at hsum
    omega

/-- C6 witness: two records whose only `a`-leaves are null produce a
table with no key `a` at all. -/
theorem C6_witness :
    (([JsonValue.obj (.cons "a" .null .nil),
       JsonValue.obj (.cons "a" .null .nil)].map
        (fun r => specLeavesAt r "" "a")).sum = 0) ∧
    histOf (process_data
        [JsonValue.obj (.cons "a" .null .nil),
         JsonValue.obj (.cons "a" .null .nil)]) "a" = none :=
  ⟨by decide, C6_null_never_recorded.2
    [JsonValue.obj (.cons "a" .null .nil),
     JsonValue.obj (.cons "a" .null .nil)] "a" (by decide)⟩

/-- C7: every aggregated table is well-formed — present keys have
non-empty histograms and every count is at least 1 — so for a non-empty
aggregated table `maxLen ≥ 1` and the writer always takes the full `ok`
branch: the `max_length == 0` "No data found" branch is unreachable
from aggregation output. -/
theorem C7_counts_positive (records : List JsonValue)
    (hne : process_data records ≠ []) :
    (∀ kh ∈ process_data records, kh.2 ≠ [] ∧ ∀ vc ∈ kh.2, 1 ≤ vc.2) ∧
    1 ≤ maxLen (dataRows (process_data records)) ∧
    ∃ hs rows, write_to_csv (process_data records) = CsvResult.ok hs rows := by
  have hwf := process_data_WF records
  have hpos := maxLen_pos_of_WF hwf hne
  exact ⟨hwf, hpos, _, _, write_to_csv_pos hne (by omega)⟩

/-- C7 witness: one record `{"a": 1}` yields a non-empty table and the
writer takes the `ok` branch. -/
theorem C7_witness :
    process_data [JsonValue.obj (.cons "a" (.prim (.num 1)) .nil)] ≠ [] ∧
    ∃ hs rows, write_to_csv
        (process_data [JsonValue.obj (.cons "a" (.prim (.num 1)) .nil)])
      = CsvResult.ok hs rows :=
  ⟨by decide,
   (C7_counts_positive [JsonValue.obj (.cons "a" (.prim (.num 1)) .nil)]
      (by decide)).2.2⟩

/-- C8: the writer returns the `emptyTable` outcome exactly on the empty
table — it opens no file and raises nothing (the embedded function is
total) — and on any non-empty table it opens and writes the file. -/
theorem C8_empty_table (t : FreqTable) :
    (write_to_csv t = CsvResult.emptyTable ↔ t = []) ∧
    (t = [] → producesFile (write_to_csv t) = false) ∧
    (t ≠ [] → producesFile (write_to_csv t) = true) := by
  refine ⟨⟨?_, ?_⟩, ?_, ?_⟩
  · intro he
    by_contra hne
    by_cases hm : maxLen (dataRows t) = 0
    · rw [write_to_csv_zero hne hm] at he
      cases he
    · rw [write_to_csv_pos hne hm] at he
      cases he
  · intro h1
    subst h1
    rfl
  · intro h1
    subst h1
    rfl
  · intro hne
    by_cases hm : maxLen (dataRows t) = 0
    · rw [write_to_csv_zero hne hm]
      rfl
    · rw [write_to_csv_pos hne hm]
      rfl

/-- C8 witness: a one-key table is written; the empty table is not. -/
theorem C8_witness :
    ([("a", [(Scalar.num 1, 1)])] : FreqTable) ≠ [] ∧
    producesFile (write_to_csv [("a", [(Scalar.num 1, 1)])]) = true :=
  ⟨by decide, (C8_empty_table [("a", [(Scalar.num 1, 1)])]).2.2 (by decide)⟩

/-- C9: loader error handling — a malformed line is skipped and the
remaining lines are processed unchanged; blank lines are skipped; a line
parsing as an array contributes each element as a record; any other
parsed value contributes itself; and the spec scenario: a file with one
malformed line and one valid line `{"x":5}` yields exactly one record
whose table has KeyPath `x` with value `5`, count `1`. -/
theorem C9_malformed_skipped :
    (∀ (pre post : List LineContent),
        read_json_file (pre ++ .malformed :: post) = read_json_file (pre ++ post)) ∧
    (∀ rest, read_json_file (.empty :: rest) = read_json_file rest) ∧
    (∀ (xs : JsonArray) rest,
        read_json_file (.parsed (.arr xs) :: rest) = xs.toList ++ read_json_file rest) ∧
    (∀ (v : JsonValue) rest, (∀ xs, v ≠ .arr xs) →
        read_json_file (.parsed v :: rest) = v :: read_json_file rest) ∧
    (read_json_file [.malformed, .parsed (.obj (.cons "x" (.prim (.num 5)) .nil))]
        = [JsonValue.obj (.cons "x" (.prim (.num 5)) .nil)] ∧
      (process_data (read_json_file
          [.malformed, .parsed (.obj (.cons "x" (.prim (.num 5)) .nil))])).length = 1 ∧
      histOf (process_data (read_json_file
          [.malformed, .parsed (.obj (.cons "x" (.prim (.num 5)) .nil))])) "x"
        = some [(Scalar.num 5, 1)]) := by
  refine ⟨?_, fun _ => rfl, fun _ _ => rfl, ?_, rfl, rfl, rfl⟩
  · intro pre post
    rw [show (pre ++ LineContent.malformed :: post : List LineContent)
          = pre ++ [LineContent.malformed] ++ post from by simp,
      read_json_file_append, read_json_file_append, read_json_file_append]
    simp [read_json_file]
  · intro v rest hv
    cases v with
    | null => rfl
    | prim s => rfl
    | obj fs => rfl
    | arr xs => exact absurd rfl (hv xs)

/-- C9 witness: the valid-line value `{"x":5}` is not an array, so the
non-array line rule applies to it. -/
theorem C9_witness :
    read_json_file [.parsed (.obj (.cons "x" (.prim (.num 5)) .nil))]
      = [JsonValue.obj (.cons "x" (.prim (.num 5)) .nil)] :=
  C9_malformed_skipped.2.2.2.1 (.obj (.cons "x" (.prim (.num 5)) .nil)) []
    (fun _ h => JsonValue.noConfusion h)

/-- C10: a record that is itself a non-null scalar (or a scalar reached
only through top-level arrays) is counted under the empty-string
KeyPath: with the empty prefix, `prefix[:-1]` is again `""`, and the CSV
headers for that key are `" [Value]"` and `" [Instances]"`. -/
theorem C10_empty_keypath :
    (∀ (s : Scalar) (t : FreqTable), flatten_data (.prim s) "" t = tableIncr t "" s) ∧
    (∀ (s : Scalar) (t : FreqTable),
        flatten_data (.arr (.cons (.prim s) .nil)) "" t = tableIncr t "" s) ∧
    (∀ s : Scalar, process_data [.prim s] = [("", [(s, 1)])]) ∧
    write_to_csv (process_data [.prim (.num 7)])
      = CsvResult.ok [" [Value]", " [Instances]"]
          [[Cell.vcell (Scalar.num 7), Cell.icell 1]] :=
  ⟨fun _ _ => rfl, fun _ _ => rfl, fun _ => rfl, by decide⟩

end MakeDict
